import Mathlib

/-!
Verification of the Levenspiel two-stage reactor sizing engine of
`streamlit_app.py` (lines 63-111).  The table arithmetic of the source is
embedded shallowly: NumPy/pandas float arrays become lists of rationals,
and operations that raise or produce no result return `Option`.
-/

namespace ReactionEng

/-- A rate table: the two columns of the data frame built at
`streamlit_app.py` lines 80-82, the conversion values `X` and the rate
values `rA` (the column the source names `-rA`).  Floats are modelled
as rationals. -/
structure RateTable where
  X : List ℚ
  rA : List ℚ
deriving DecidableEq

/-- Model of the data-frame construction on line 82 applied to the two
parsed value lists: building the two-column frame succeeds exactly when
the lists have equal length, and raises `ValueError` (modelled `none`)
otherwise.  No ordering or duplicate check of any kind is performed. -/
def mkDataFrame (xs rs : List ℚ) : Option RateTable :=
  if xs.length = rs.length then some ⟨xs, rs⟩ else none

/-- Model of the `try/except` construction at lines 78-85: when the frame
cannot be built the fallback table with `X = [0.0]` and rate `[0.001]`
is substituted (line 85). -/
def buildTable (xs rs : List ℚ) : RateTable :=
  match mkDataFrame xs rs with
  | some t => t
  | none => ⟨[0], [1 / 1000]⟩

/-- Model of `np.interp x xp fp` on the zipped sample points, as called on
the table columns at line 91 (sorted `xp` in every use the claims cover).
An empty sample array raises `ValueError` (modelled `none`); below the
first point the first value is returned, above the last point the last
value, and in between the piecewise-linear interpolant
`fp_j + (fp_(j+1) - fp_j) * (x - xp_j) / (xp_(j+1) - xp_j)`. -/
def np_interp (x : ℚ) : List (ℚ × ℚ) → Option ℚ
  | [] => none
  | [p] => some p.2
  | p :: q :: rest =>
    if x < p.1 then some p.2
    else if x ≤ q.1 then some (p.2 + (q.2 - p.2) * (x - p.1) / (q.1 - p.1))
    else np_interp x (q :: rest)

/-- Line 91: `r_interp = np.interp([X_int], df["X"], df["-rA"])[0]`. -/
def interpolate_rate (t : RateTable) (x : ℚ) : Option ℚ :=
  np_interp x (t.X.zip t.rA)

/-- Line 92: `V_cstr = FA0 * X_int / r_interp`.  IEEE division by zero
yields a non-finite value (`inf` or `nan`), modelled as `none`; for any
nonzero rate, positive or negative, the quotient is returned. -/
def cstr_volume (FA0 xi r : ℚ) : Option ℚ :=
  if r = 0 then none else some (FA0 * xi / r)

/-- Model of `np.trapz y x`, which computes
`(np.diff x * (y[0:] shifted sum) / 2).sum()`, on zipped `(x, y)` points:
the sum of `(x_(i+1) - x_i) * (y_i + y_(i+1)) / 2` over consecutive
pairs. -/
def trapz : List (ℚ × ℚ) → ℚ
  | [] => 0
  | [_] => 0
  | p :: q :: rest => (q.1 - p.1) * (p.2 + q.2) / 2 + trapz (q :: rest)

/-- Lines 94-98: the boolean mask `(X_array >= X_int) & (X_array <= X_final)`
applied to both columns, kept as zipped pairs. -/
def selectSub (xi xf : ℚ) (t : RateTable) : List (ℚ × ℚ) :=
  (t.X.zip t.rA).filter (fun p => decide (xi ≤ p.1 ∧ p.1 ≤ xf))

/-- Lines 99-104: when more than one sample survives the mask,
`V_pfr = FA0 * np.trapz(1 / r_sub, X_sub)`; otherwise only a warning is
shown and no volume is produced (modelled `none`). -/
def pfr_volume (FA0 xi xf : ℚ) (t : RateTable) : Option ℚ :=
  if 1 < (selectSub xi xf t).length then
    some (FA0 * trapz ((selectSub xi xf t).map (fun p => (p.1, 1 / p.2))))
  else none

/-- The trapezoidal sum exactly as the spec words it: for points
`(x0,y0) ... (xn,yn)`, the sum over `i` of
`(x_(i+1) - x_i) * (y_i + y_(i+1)) / 2`. -/
def trapSumSpec (pts : List (ℚ × ℚ)) : ℚ :=
  ∑ i in Finset.range (pts.length - 1),
    ((pts.getD (i + 1) (0, 0)).1 - (pts.getD i (0, 0)).1)
      * ((pts.getD i (0, 0)).2 + (pts.getD (i + 1) (0, 0)).2) / 2

/-- Minimum of a list of rationals, for stating range bounds. -/
def listMin : List ℚ → ℚ
  | [] => 0
  | [a] => a
  | a :: b :: rest => min a (listMin (b :: rest))

/-- Maximum of a list of rationals, for stating range bounds. -/
def listMax : List ℚ → ℚ
  | [] => 0
  | [a] => a
  | a :: b :: rest => max a (listMax (b :: rest))

/-- Claim C2: on the table with conversions 0, 0.5, 1 and rates 0.01,
0.005, 0.0025, with FA0 = 1, X_int = 0.5, X_final = 1: the interpolated
rate at 0.5 is 0.005, the CSTR volume is 100, and the PFR volume is 150. -/
theorem concrete_scenario :
    interpolate_rate ⟨[0, 1/2, 1], [1/100, 1/200, 1/400]⟩ (1/2)
        = some (1/200) ∧
    cstr_volume 1 (1/2) (1/200) = some 100 ∧
    pfr_volume 1 (1/2) 1 ⟨[0, 1/2, 1], [1/100, 1/200, 1/400]⟩
        = some 150 := by
  refine ⟨by norm_num [interpolate_rate, np_interp],
    by norm_num [cstr_volume],
    by norm_num [pfr_volume, selectSub, trapz, List.filter]⟩

theorem trapz_eq_spec : ∀ pts : List (ℚ × ℚ), trapz pts = trapSumSpec pts
  | [] => by simp [trapz, trapSumSpec]
  | [p] => by simp [trapz, trapSumSpec]
  | p :: q :: rest => by
    have ih := trapz_eq_spec (q :: rest)
    show (q.1 - p.1) * (p.2 + q.2) / 2 + trapz (q :: rest)
        = trapSumSpec (p :: q :: rest)
    rw [ih]
    simp only [trapSumSpec, List.length_cons, Nat.succ_sub_one,
      Finset.sum_range_succ', List.getD_cons_succ, List.getD_cons_zero]
    ring

/-- Claim C1: for a table of at least two samples with strictly increasing
conversions and positive rates, when at least two samples lie in the
requested range, the PFR volume equals FA0 times the trapezoidal sum of
the spec taken over exactly the in-range samples, with y = 1 / rate. -/
theorem pfr_volume_is_trapezoid (t : RateTable) (FA0 xi xf : ℚ)
    (hlen : 2 ≤ t.X.length) (hmono : List.Chain' (· < ·) t.X)
    (hpos : ∀ r ∈ t.rA, 0 < r)
    (hsub : 2 ≤ (selectSub xi xf t).length) :
    pfr_volume FA0 xi xf t
      = some (FA0 * trapSumSpec
          ((selectSub xi xf t).map (fun p => (p.1, 1 / p.2)))) := by
  rw [pfr_volume, if_pos (by omega), trapz_eq_spec]

theorem pfr_volume_is_trapezoid_witness :
    pfr_volume 1 (1/2) 1 ⟨[0, 1/2, 1], [1/100, 1/200, 1/400]⟩
      = some (1 * trapSumSpec
          ((selectSub (1/2) 1 ⟨[0, 1/2, 1], [1/100, 1/200, 1/400]⟩).map
            (fun p => (p.1, 1 / p.2)))) := by
  apply pfr_volume_is_trapezoid
  · norm_num
  · norm_num [List.chain'_cons]
  · intro r hr
    simp only [List.mem_cons, List.not_mem_nil, or_false] at hr
    rcases hr with h | h | h <;> rw [h] <;> norm_num
  · norm_num [selectSub, List.filter]

/-- Claim C3 (amended): line 92 performs no check on the rate before
dividing: for every nonzero rate, negative ones included, the volume
FA0 * X_int / rate is returned and no error is raised. -/
theorem cstr_volume_formula (FA0 xi r : ℚ) (h : r ≠ 0) :
    cstr_volume FA0 xi r = some (FA0 * xi / r) := by
  simp [cstr_volume, h]

theorem cstr_volume_formula_witness :
    ((1 : ℚ) / 200 ≠ 0) ∧
      cstr_volume 1 (1/2) (1/200) = some (1 * (1/2) / (1/200)) :=
  ⟨by norm_num, cstr_volume_formula 1 (1/2) (1/200) (by norm_num)⟩

/-- Claim C3 counterexample: at the negative rate -0.01 the code does not
fail: it returns the finite negative volume -50. -/
theorem cstr_volume_negative_rate_no_error :
    cstr_volume 1 (1/2) (-(1/100)) = some (-50) := by
  norm_num [cstr_volume]

/-- Claim C4: when fewer than two table samples lie in the requested
range, the guard on line 99 fails, only a warning is shown, and no PFR
volume is produced. -/
theorem pfr_volume_insufficient_data (t : RateTable) (FA0 xi xf : ℚ)
    (h : (selectSub xi xf t).length < 2) :
    pfr_volume FA0 xi xf t = none := by
  rw [pfr_volume, if_neg (by omega)]

theorem pfr_volume_insufficient_data_witness :
    pfr_volume 1 (1/2) (1/2) ⟨[0, 1/2, 1], [1/100, 1/200, 1/400]⟩ = none := by
  apply pfr_volume_insufficient_data
  norm_num [selectSub, List.filter]

/-- Claim C5 (amended): interpolation raises only on an empty sample
array; a one-sample table yields that sample's rate at every query
point instead of failing. -/
theorem interpolate_rate_small_tables (x : ℚ) :
    interpolate_rate ⟨[], []⟩ x = none ∧
      ∀ x0 y0 : ℚ, interpolate_rate ⟨[x0], [y0]⟩ x = some y0 := by
  exact ⟨rfl, fun x0 y0 => rfl⟩

/-- Claim C5 counterexample: on the one-sample fallback table the code
returns the stored rate 0.001 instead of failing with a DomainError. -/
theorem interpolate_rate_single_sample_no_error :
    interpolate_rate ⟨[0], [1/1000]⟩ (3/10) = some (1/1000) := rfl

/-- Claim C6 (amended): construction performs no ordering or duplicate
check: any equal-length pair of columns is stored exactly as given. -/
theorem buildTable_stores_columns (xs rs : List ℚ)
    (h : xs.length = rs.length) :
    buildTable xs rs = ⟨xs, rs⟩ := by
  simp [buildTable, mkDataFrame, h]

theorem buildTable_stores_columns_witness :
    ([0, 1, 1] : List ℚ).length = ([5, 6, 7] : List ℚ).length ∧
      buildTable [0, 1, 1] [5, 6, 7] = ⟨[0, 1, 1], [5, 6, 7]⟩ :=
  ⟨by simp, buildTable_stores_columns _ _ (by simp)⟩

/-- Claim C6 counterexample: construction accepts a duplicated conversion
value and stores it unchanged; the stored X column of the accepted table
is not strictly increasing. -/
theorem buildTable_accepts_duplicates :
    buildTable [0, 0] [1, 2] = ⟨[0, 0], [1, 2]⟩ ∧
      ¬ List.Chain' (· < ·) (buildTable [0, 0] [1, 2]).X := by
  constructor
  · rfl
  · rw [show buildTable [0, 0] [1, 2] = ⟨[0, 0], [1, 2]⟩ from rfl]
    simp [List.chain'_cons]

/-- Claim C9: the PFR volume depends only on the samples the mask keeps:
two tables whose in-range sample lists coincide give the same result for
the same FA0 and range. -/
theorem pfr_volume_frame (t1 t2 : RateTable) (FA0 xi xf : ℚ)
    (h : selectSub xi xf t1 = selectSub xi xf t2) :
    pfr_volume FA0 xi xf t1 = pfr_volume FA0 xi xf t2 := by
  rw [pfr_volume, pfr_volume, h]

theorem pfr_volume_frame_witness :
    selectSub (1/2) 1 ⟨[0, 1/2, 1], [1/100, 1/200, 1/400]⟩
        = selectSub (1/2) 1 ⟨[1/4, 1/2, 1, 2], [9, 1/200, 1/400, 7]⟩ ∧
      pfr_volume 1 (1/2) 1 ⟨[0, 1/2, 1], [1/100, 1/200, 1/400]⟩
        = pfr_volume 1 (1/2) 1 ⟨[1/4, 1/2, 1, 2], [9, 1/200, 1/400, 7]⟩ := by
  have h : selectSub (1/2) 1
        (⟨[0, 1/2, 1], [1/100, 1/200, 1/400]⟩ : RateTable)
      = selectSub (1/2) 1 ⟨[1/4, 1/2, 1, 2], [9, 1/200, 1/400, 7]⟩ := by
    norm_num [selectSub, List.filter]
  exact ⟨h, pfr_volume_frame _ _ _ _ _ h⟩

theorem getD_pair_mem (l : List (ℚ × ℚ)) (i : ℕ) (h : i < l.length) :
    l.getD i (0, 0) ∈ l := by
  rw [List.getD_eq_getElem l (0, 0) h]
  exact List.getElem_mem h

theorem chain_fst_lt_of_mem : ∀ (q : ℚ × ℚ) (rest : List (ℚ × ℚ)),
    List.Chain' (fun a b : ℚ × ℚ => a.1 < b.1) (q :: rest) →
    ∀ p ∈ rest, q.1 < p.1
  | _, [], _, p, hp => absurd hp (List.not_mem_nil p)
  | q, r :: rest, hchain, p, hp => by
    have hqr : q.1 < r.1 := (List.chain'_cons.mp hchain).1
    rcases List.mem_cons.mp hp with h | h
    · rw [h]; exact hqr
    · exact lt_trans hqr
        (chain_fst_lt_of_mem r rest (List.chain'_cons.mp hchain).2 p h)

theorem fst_head_le_getLast : ∀ (ps : List (ℚ × ℚ)) (hne : ps ≠ []),
    List.Chain' (fun a b : ℚ × ℚ => a.1 < b.1) ps →
    (ps.head hne).1 ≤ (ps.getLast hne).1
  | [], hne, _ => absurd rfl hne
  | [p], _, _ => le_refl _
  | p :: q :: rest, _, hmono => by
    have hpq : p.1 < q.1 := (List.chain'_cons.mp hmono).1
    have ih := fst_head_le_getLast (q :: rest) (List.cons_ne_nil _ _)
      (List.chain'_cons.mp hmono).2
    rw [List.getLast_cons (List.cons_ne_nil _ _)]
    exact le_trans (le_of_lt hpq) ih

theorem np_interp_below : ∀ (ps : List (ℚ × ℚ)) (hne : ps ≠ []) (x : ℚ),
    x < (ps.head hne).1 → np_interp x ps = some (ps.head hne).2
  | [], hne, _, _ => absurd rfl hne
  | [p], _, x, _ => rfl
  | p :: q :: rest, _, x, hx => by
    have hx' : x < p.1 := hx
    simp only [np_interp]
    rw [if_pos hx']
    rfl

theorem np_interp_above : ∀ (ps : List (ℚ × ℚ)) (hne : ps ≠ []),
    List.Chain' (fun a b : ℚ × ℚ => a.1 < b.1) ps → ∀ x : ℚ,
    (ps.getLast hne).1 < x → np_interp x ps = some (ps.getLast hne).2
  | [], hne, _, _, _ => absurd rfl hne
  | [p], _, _, x, _ => rfl
  | p :: q :: rest, hne, hmono, x, hx => by
    have hpq : p.1 < q.1 := (List.chain'_cons.mp hmono).1
    have hm2 := (List.chain'_cons.mp hmono).2
    have hql : q.1 ≤ ((q :: rest).getLast (List.cons_ne_nil _ _)).1 :=
      fst_head_le_getLast (q :: rest) (List.cons_ne_nil _ _) hm2
    have hlast : (p :: q :: rest).getLast hne
        = (q :: rest).getLast (List.cons_ne_nil _ _) :=
      List.getLast_cons (List.cons_ne_nil _ _)
    rw [hlast] at hx ⊢
    have hqx : q.1 < x := lt_of_le_of_lt hql hx
    have ih := np_interp_above (q :: rest) (List.cons_ne_nil _ _) hm2 x hx
    simp only [np_interp]
    rw [if_neg (not_lt.mpr (le_of_lt (lt_trans hpq hqx))),
      if_neg (not_le.mpr hqx)]
    exact ih

theorem zip_ne_nil (xs rs : List ℚ) (hxne : xs ≠ []) (hrne : rs ≠ []) :
    xs.zip rs ≠ [] := by
  cases xs with
  | nil => exact absurd rfl hxne
  | cons a xs =>
    cases rs with
    | nil => exact absurd rfl hrne
    | cons b rs => simp [List.zip_cons_cons]

theorem head_zip (xs rs : List ℚ) (hxne : xs ≠ []) (hrne : rs ≠ [])
    (hz : xs.zip rs ≠ []) :
    (xs.zip rs).head hz = (xs.head hxne, rs.head hrne) := by
  cases xs with
  | nil => exact absurd rfl hxne
  | cons a xs =>
    cases rs with
    | nil => exact absurd rfl hrne
    | cons b rs => rfl

theorem getLast_zip : ∀ (xs rs : List ℚ), xs.length = rs.length →
    ∀ (hxne : xs ≠ []) (hrne : rs ≠ []) (hz : xs.zip rs ≠ []),
    (xs.zip rs).getLast hz = (xs.getLast hxne, rs.getLast hrne)
  | [], _, _, hxne, _, _ => absurd rfl hxne
  | _ :: _, [], _, _, hrne, _ => absurd rfl hrne
  | [a], b :: rs, heq, _, _, _ => by
    have hr : rs = [] := by
      cases rs with
      | nil => rfl
      | cons c cs => simp at heq
    subst hr
    rfl
  | a :: a2 :: xs, [b], heq, _, _, _ => by simp at heq
  | a :: a2 :: xs, b :: b2 :: rs, heq, hxne, hrne, hz => by
    have heq2 : (a2 :: xs).length = (b2 :: rs).length := by simpa using heq
    have hz2 : (a2 :: xs).zip (b2 :: rs) ≠ [] :=
      zip_ne_nil _ _ (List.cons_ne_nil _ _) (List.cons_ne_nil _ _)
    have ih := getLast_zip (a2 :: xs) (b2 :: rs) heq2
      (List.cons_ne_nil _ _) (List.cons_ne_nil _ _) hz2
    have h0 : ((a :: a2 :: xs).zip (b :: b2 :: rs)).getLast hz
        = ((a2 :: xs).zip (b2 :: rs)).getLast hz2 := List.getLast_cons hz2
    have h1 : (a :: a2 :: xs).getLast hxne
        = (a2 :: xs).getLast (List.cons_ne_nil _ _) :=
      List.getLast_cons (List.cons_ne_nil _ _)
    have h2 : (b :: b2 :: rs).getLast hrne
        = (b2 :: rs).getLast (List.cons_ne_nil _ _) :=
      List.getLast_cons (List.cons_ne_nil _ _)
    rw [h0, ih, h1, h2]

theorem zip_fst_chain (xs rs : List ℚ) (heq : xs.length = rs.length)
    (hmono : List.Chain' (· < ·) xs) :
    List.Chain' (fun a b : ℚ × ℚ => a.1 < b.1) (xs.zip rs) := by
  have h1 : (xs.zip rs).map Prod.fst = xs :=
    List.map_fst_zip xs rs (le_of_eq heq)
  rw [← h1] at hmono
  exact (List.chain'_map Prod.fst).mp hmono

/-- Claim C7: for a table with at least two strictly increasing
conversions, a query below the smallest conversion returns the first
stored rate and a query above the largest returns the last stored rate
(constant boundary extrapolation of np.interp). -/
theorem interpolate_rate_clamps (xs rs : List ℚ) (x : ℚ)
    (hlen : 2 ≤ xs.length) (heq : xs.length = rs.length)
    (hmono : List.Chain' (· < ·) xs)
    (hxne : xs ≠ []) (hrne : rs ≠ []) :
    (x < xs.head hxne →
      interpolate_rate ⟨xs, rs⟩ x = some (rs.head hrne)) ∧
    (xs.getLast hxne < x →
      interpolate_rate ⟨xs, rs⟩ x = some (rs.getLast hrne)) := by
  have hz : xs.zip rs ≠ [] := zip_ne_nil xs rs hxne hrne
  constructor
  · intro hx
    have hb := np_interp_below (xs.zip rs) hz x
      (by rw [head_zip xs rs hxne hrne hz]; exact hx)
    show np_interp x (xs.zip rs) = some (rs.head hrne)
    rw [hb, head_zip xs rs hxne hrne hz]
  · intro hx
    have hm := zip_fst_chain xs rs heq hmono
    have ha := np_interp_above (xs.zip rs) hz hm x
      (by rw [getLast_zip xs rs heq hxne hrne hz]; exact hx)
    show np_interp x (xs.zip rs) = some (rs.getLast hrne)
    rw [ha, getLast_zip xs rs heq hxne hrne hz]

theorem interpolate_rate_clamps_witness :
    interpolate_rate ⟨[0, 1/2, 1], [1/100, 1/200, 1/400]⟩ (-1)
        = some (1/100) ∧
      interpolate_rate ⟨[0, 1/2, 1], [1/100, 1/200, 1/400]⟩ 2
        = some (1/400) := by
  constructor
  · exact (interpolate_rate_clamps [0, 1/2, 1] [1/100, 1/200, 1/400] (-1)
      (by norm_num) (by norm_num) (by norm_num [List.chain'_cons])
      (by simp) (by simp)).1 (by norm_num)
  · exact (interpolate_rate_clamps [0, 1/2, 1] [1/100, 1/200, 1/400] 2
      (by norm_num) (by norm_num) (by norm_num [List.chain'_cons])
      (by simp) (by simp)).2 (by norm_num [List.getLast])

theorem getD_zip : ∀ (xs rs : List ℚ) (i : ℕ), i < xs.length →
    i < rs.length →
    (xs.zip rs).getD i (0, 0) = (xs.getD i 0, rs.getD i 0)
  | [], _, i, hi, _ => by simp at hi
  | _ :: _, [], i, _, hi => by simp at hi
  | a :: xs, b :: rs, 0, _, _ => rfl
  | a :: xs, b :: rs, i + 1, hi, hi2 => by
    show (xs.zip rs).getD i (0, 0) = (xs.getD i 0, rs.getD i 0)
    exact getD_zip xs rs i (by simpa using hi) (by simpa using hi2)

theorem np_interp_at_sample : ∀ (ps : List (ℚ × ℚ)),
    List.Chain' (fun a b : ℚ × ℚ => a.1 < b.1) ps →
    ∀ i, i < ps.length →
    np_interp (ps.getD i (0, 0)).1 ps = some (ps.getD i (0, 0)).2
  | [], _, i, hi => by simp at hi
  | [p], _, 0, _ => rfl
  | [p], _, i + 1, hi => by simp at hi
  | p :: q :: rest, hmono, 0, _ => by
    have hpq : p.1 < q.1 := (List.chain'_cons.mp hmono).1
    simp only [List.getD_cons_zero, np_interp]
    rw [if_neg (lt_irrefl p.1), if_pos (le_of_lt hpq)]
    rw [sub_self, mul_zero, zero_div, add_zero]
  | p :: q :: rest, hmono, 1, _ => by
    have hpq : p.1 < q.1 := (List.chain'_cons.mp hmono).1
    have hd : q.1 - p.1 ≠ 0 := sub_ne_zero.mpr (ne_of_gt hpq)
    simp only [List.getD_cons_succ, List.getD_cons_zero, np_interp]
    rw [if_neg (not_lt.mpr (le_of_lt hpq)), if_pos (le_refl q.1)]
    rw [mul_div_assoc, div_self hd, mul_one]
    rw [show p.2 + (q.2 - p.2) = q.2 by ring]
  | p :: q :: rest, hmono, j + 2, hi => by
    have hpq : p.1 < q.1 := (List.chain'_cons.mp hmono).1
    have hm2 := (List.chain'_cons.mp hmono).2
    have hi2 : j + 1 < (q :: rest).length := by simpa using hi
    have ih := np_interp_at_sample (q :: rest) hm2 (j + 1) hi2
    have hmem : rest.getD j (0, 0) ∈ rest :=
      getD_pair_mem rest j (by simpa using hi2)
    have hqx : q.1 < (rest.getD j (0, 0)).1 :=
      chain_fst_lt_of_mem q rest hm2 _ hmem
    simp only [List.getD_cons_succ] at ih ⊢
    simp only [np_interp]
    rw [if_neg (not_lt.mpr (le_of_lt (lt_trans hpq hqx))),
      if_neg (not_le.mpr hqx)]
    exact ih

/-- Claim C8: interpolation evaluated exactly at the i-th stored
conversion returns exactly the i-th stored rate, for any strictly
increasing table. -/
theorem interpolate_rate_at_sample (xs rs : List ℚ) (i : ℕ)
    (heq : xs.length = rs.length) (hmono : List.Chain' (· < ·) xs)
    (hi : i < xs.length) :
    interpolate_rate ⟨xs, rs⟩ (xs.getD i 0) = some (rs.getD i 0) := by
  have hm := zip_fst_chain xs rs heq hmono
  have hi2 : i < (xs.zip rs).length := by
    rw [List.length_zip, ← heq, min_self]
    exact hi
  have h := np_interp_at_sample (xs.zip rs) hm i hi2
  rw [getD_zip xs rs i hi (heq ▸ hi)] at h
  exact h

theorem interpolate_rate_at_sample_witness :
    interpolate_rate ⟨[0, 1/2, 1], [1/100, 1/200, 1/400]⟩
        (([0, 1/2, 1] : List ℚ).getD 1 0)
      = some (([1/100, 1/200, 1/400] : List ℚ).getD 1 0) :=
  interpolate_rate_at_sample [0, 1/2, 1] [1/100, 1/200, 1/400] 1
    (by norm_num) (by norm_num [List.chain'_cons]) (by norm_num)

theorem listMin_cons_le (a : ℚ) (l : List ℚ) : listMin (a :: l) ≤ a := by
  cases l with
  | nil => exact le_refl a
  | cons b t => exact min_le_left _ _

theorem le_listMax_cons (a : ℚ) (l : List ℚ) : a ≤ listMax (a :: l) := by
  cases l with
  | nil => exact le_refl a
  | cons b t => exact le_max_left _ _

theorem listMin_cons_le_tail (a b : ℚ) (t : List ℚ) :
    listMin (a :: b :: t) ≤ listMin (b :: t) :=
  min_le_right _ _

theorem listMax_tail_le (a b : ℚ) (t : List ℚ) :
    listMax (b :: t) ≤ listMax (a :: b :: t) :=
  le_max_right _ _

theorem interp_segment_bounds (x0 x1 y0 y1 x : ℚ) (h0 : x0 ≤ x)
    (h1 : x ≤ x1) (hx : x0 < x1) :
    min y0 y1 ≤ y0 + (y1 - y0) * (x - x0) / (x1 - x0) ∧
      y0 + (y1 - y0) * (x - x0) / (x1 - x0) ≤ max y0 y1 := by
  have hd : 0 < x1 - x0 := sub_pos.mpr hx
  have ht0 : 0 ≤ (x - x0) / (x1 - x0) := div_nonneg (by linarith) hd.le
  have ht1 : (x - x0) / (x1 - x0) ≤ 1 := (div_le_one hd).mpr (by linarith)
  have hval : y0 + (y1 - y0) * (x - x0) / (x1 - x0)
      = y0 + (y1 - y0) * ((x - x0) / (x1 - x0)) := by ring
  rw [hval]
  rcases le_total y0 y1 with h | h
  · rw [min_eq_left h, max_eq_right h]
    constructor <;> nlinarith
  · rw [min_eq_right h, max_eq_left h]
    constructor <;> nlinarith

theorem np_interp_bounds : ∀ (ps : List (ℚ × ℚ)),
    List.Chain' (fun a b : ℚ × ℚ => a.1 < b.1) ps →
    ∀ x r : ℚ, np_interp x ps = some r →
    listMin (ps.map Prod.snd) ≤ r ∧ r ≤ listMax (ps.map Prod.snd)
  | [], _, x, r, h => by simp [np_interp] at h
  | [p], _, x, r, h => by
    have hr : p.2 = r := by
      simpa [np_interp] using h
    rw [← hr]
    exact ⟨le_refl _, le_refl _⟩
  | p :: q :: rest, hmono, x, r, h => by
    have hpq : p.1 < q.1 := (List.chain'_cons.mp hmono).1
    have hm2 := (List.chain'_cons.mp hmono).2
    simp only [np_interp] at h
    by_cases h1 : x < p.1
    · rw [if_pos h1, Option.some_inj] at h
      rw [← h]
      exact ⟨listMin_cons_le _ _, le_listMax_cons _ _⟩
    · rw [if_neg h1] at h
      by_cases h2 : x ≤ q.1
      · rw [if_pos h2, Option.some_inj] at h
        have hseg := interp_segment_bounds p.1 q.1 p.2 q.2 x
          (not_lt.mp h1) h2 hpq
        rw [← h]
        constructor
        · refine le_trans (le_min ?_ ?_) hseg.1
          · exact listMin_cons_le _ _
          · exact le_trans (listMin_cons_le_tail _ _ _) (listMin_cons_le _ _)
        · refine le_trans hseg.2 (max_le ?_ ?_)
          · exact le_listMax_cons _ _
          · exact le_trans (le_listMax_cons _ _) (listMax_tail_le _ _ _)
      · rw [if_neg h2] at h
        have ih := np_interp_bounds (q :: rest) hm2 x r h
        constructor
        · exact le_trans (listMin_cons_le_tail _ _ _) ih.1
        · exact le_trans ih.2 (listMax_tail_le _ _ _)

theorem np_interp_total : ∀ (ps : List (ℚ × ℚ)), ps ≠ [] → ∀ x : ℚ,
    ∃ r : ℚ, np_interp x ps = some r
  | [], hne, _ => absurd rfl hne
  | [p], _, x => ⟨p.2, rfl⟩
  | p :: q :: rest, _, x => by
    by_cases h1 : x < p.1
    · exact ⟨p.2, by simp only [np_interp]; rw [if_pos h1]⟩
    · by_cases h2 : x ≤ q.1
      · refine ⟨p.2 + (q.2 - p.2) * (x - p.1) / (q.1 - p.1), ?_⟩
        simp only [np_interp]
        rw [if_neg h1, if_pos h2]
      · obtain ⟨r, hr⟩ := np_interp_total (q :: rest) (List.cons_ne_nil _ _) x
        refine ⟨r, ?_⟩
        simp only [np_interp]
        rw [if_neg h1, if_neg h2]
        exact hr

/-- Claim C10: on a table with at least two strictly increasing
conversions, interpolation always returns a rate, and that rate lies
between the minimum and the maximum of the stored rates. -/
theorem interpolate_rate_bounded (xs rs : List ℚ) (x : ℚ)
    (hlen : 2 ≤ xs.length) (heq : xs.length = rs.length)
    (hmono : List.Chain' (· < ·) xs) :
    ∃ r : ℚ, interpolate_rate ⟨xs, rs⟩ x = some r ∧
      listMin rs ≤ r ∧ r ≤ listMax rs := by
  have hxne : xs ≠ [] := by
    intro hnil
    rw [hnil] at hlen
    simp at hlen
  have hrne : rs ≠ [] := by
    intro hnil
    rw [hnil, List.length_nil] at heq
    rw [heq] at hlen
    exact absurd hlen (by norm_num)
  have hz : xs.zip rs ≠ [] := zip_ne_nil xs rs hxne hrne
  obtain ⟨r, hr⟩ := np_interp_total (xs.zip rs) hz x
  have hm := zip_fst_chain xs rs heq hmono
  have hb := np_interp_bounds (xs.zip rs) hm x r hr
  have hmap : (xs.zip rs).map Prod.snd = rs :=
    List.map_snd_zip xs rs (le_of_eq heq.symm)
  rw [hmap] at hb
  exact ⟨r, hr, hb⟩

theorem interpolate_rate_bounded_witness :
    ∃ r : ℚ,
      interpolate_rate ⟨[0, 1/2, 1], [1/100, 1/200, 1/400]⟩ (1/4)
          = some r ∧
        listMin [1/100, 1/200, 1/400] ≤ r ∧
          r ≤ listMax [1/100, 1/200, 1/400] :=
  interpolate_rate_bounded [0, 1/2, 1] [1/100, 1/200, 1/400] (1/4)
    (by norm_num) (by norm_num) (by norm_num [List.chain'_cons])

end ReactionEng
